import Mathlib

/-!  Verification of the Softpal PAC archive tools (src/ExPac.py and src/PkPac.py).

The Python sources are shallowly embedded: byte buffers are lists of natural
numbers (each below 256 where it matters), fallible operations return Option
(`none` models a raised Python exception), and 32-bit machine arithmetic is
made explicit with `% 2 ^ 32` style bounds.  A whole archive file is a
`List Nat` of its bytes; `file.seek(p); file.read(k)` becomes
`(f.drop p).take k`, which like Python returns fewer bytes near end of file.
-/

namespace SoftpalPac

/-- Little-endian 32-bit word from four bytes, as struct.unpack of a 4-byte slice. -/
def unpackLE4 (b0 b1 b2 b3 : Nat) : Nat := b0 + 256 * (b1 + 256 * (b2 + 256 * b3))

/-- The four little-endian bytes of a 32-bit word, as struct.pack of a uint32. -/
def packLE4 (w : Nat) : List Nat :=
  [w % 256, w / 256 % 256, w / 256 / 256 % 256, w / 256 / 256 / 256 % 256]

/-- The xor mask 0x084DF873 ^ 0xFF987DEE shared by both cipher directions
(ExPac.py line 88, PkPac.py line 70). -/
def KEYMASK : Nat := 0x084DF873 ^^^ 0xFF987DEE

/-- Byte rotation used on extraction (ExPac.py line 83):
data[i] << shift & 0xFF | data[i] >> (8 - shift). -/
def rotl (s b : Nat) : Nat := ((b <<< s) % 256) ||| (b >>> (8 - s))

/-- Byte rotation used on packing (PkPac.py line 72):
data[i] >> shift | data[i] << (8 - shift) & 0xFF. -/
def rotr (s b : Nat) : Nat := (b >>> s) ||| ((b <<< (8 - s)) % 256)

/-- Shift update shared by both loops: increment, resetting to 0 once above 7
(ExPac.py lines 84-86, PkPac.py lines 73-75). -/
def nextShift (s : Nat) : Nat := if s + 1 > 7 then 0 else s + 1

/-- The shift value fed to word number n of the transformed region, starting
from 4 at the word at byte position 16. -/
def shiftSched : Nat → Nat
  | 0 => 4
  | n + 1 => nextShift (shiftSched n)

/-- One pass of the extraction loop of ExPac.py lines 82-89 over the region
after byte 16, one 4-byte word at a time: rotate the word's first byte left,
then xor the little-endian word with KEYMASK.  A trailing chunk of 1-3 bytes
makes struct.unpack raise, modelled by none. -/
def decodeWords : Nat → List Nat → Option (List Nat)
  | _, [] => some []
  | s, b0 :: b1 :: b2 :: b3 :: rest =>
      (decodeWords (nextShift s) rest).map
        (fun r => packLE4 (unpackLE4 (rotl s b0) b1 b2 b3 ^^^ KEYMASK) ++ r)
  | _, _ => none

/-- One pass of the packing loop of PkPac.py lines 68-75 over the region after
byte 16: xor the little-endian word with KEYMASK, then rotate the stored
word's first byte right.  A trailing chunk of 1-3 bytes makes struct.unpack
raise, modelled by none. -/
def encodeWords : Nat → List Nat → Option (List Nat)
  | _, [] => some []
  | s, b0 :: b1 :: b2 :: b3 :: rest =>
      (encodeWords (nextShift s) rest).map
        (fun r =>
          rotr s ((unpackLE4 b0 b1 b2 b3 ^^^ KEYMASK) % 256)
            :: (unpackLE4 b0 b1 b2 b3 ^^^ KEYMASK) / 256 % 256
            :: (unpackLE4 b0 b1 b2 b3 ^^^ KEYMASK) / 256 / 256 % 256
            :: (unpackLE4 b0 b1 b2 b3 ^^^ KEYMASK) / 256 / 256 / 256 % 256 :: r)
  | _, _ => none

/-- The payload decode of ExPac.py lines 78-90 (inline in PacOpener.open_entry):
when count = (len(data) - 16) // 4 is positive, transform the region from
byte 16 on with decodeWords starting at shift 4; otherwise return the data
unchanged. -/
def decodeData (data : List Nat) : Option (List Nat) :=
  if (data.length - 16) / 4 > 0 then
    (decodeWords 4 (data.drop 16)).map (fun r => data.take 16 ++ r)
  else some data

/-- PacPacker.encrypt_data of PkPac.py lines 60-77: pass data through unless
its first byte is 0x24, in which case transform the region from byte 16 on
with encodeWords starting at shift 4 when count = (len(data) - 16) // 4 is
positive.  data[0] on empty data raises, modelled by none. -/
def encrypt_data (data : List Nat) : Option (List Nat) :=
  match data with
  | [] => none
  | b :: _ =>
    if b ≠ 36 then some data
    else if (data.length - 16) / 4 > 0 then
      (encodeWords 4 (data.drop 16)).map (fun r => data.take 16 ++ r)
    else some data

/-! ### File-kind classification (ExPac.py, Entry.determine_type) -/

/-- Entry classification of ExPac.py lines 13-20, as a closed enum for the
three result strings. -/
inductive Kind
  | image
  | audio
  | unknown
deriving DecidableEq

/-- ASCII lowercasing of one byte (str.lower on a decoded ASCII name). -/
def toLowerByte (b : Nat) : Nat := if 65 ≤ b ∧ b ≤ 90 then b + 32 else b

/-- ASCII lowercasing of a byte string. -/
def toLowerBytes (l : List Nat) : List Nat := l.map toLowerByte

/-- Index of the last occurrence of byte x, as str.rfind. -/
def rfindAux (x : Nat) : List Nat → Nat → Option Nat → Option Nat
  | [], _, acc => acc
  | c :: rest, i, acc => rfindAux x rest (i + 1) (if c = x then some i else acc)

/-- Index of the last occurrence of byte x in l, as str.rfind. -/
def rfind (x : Nat) (l : List Nat) : Option Nat := rfindAux x l 0 none

/-- The extension part of os.path.splitext for a bare file name (byte 46 is
the dot): the suffix from the last dot on, unless every character before that
dot is itself a dot (leading dots do not start an extension). -/
def splitextExt (name : List Nat) : List Nat :=
  match rfind 46 name with
  | none => []
  | some i => if (name.take i).any (fun c => c != 46) then name.drop i else []

/-- Entry.determine_type of ExPac.py lines 13-20: lowercase the splitext
extension and compare it with the literal lists
['.BPIC', '.pgd', '.PIC'] and ['.wav', '.ogg']. -/
def determine_type (name : List Nat) : Kind :=
  let ext := toLowerBytes (splitextExt name)
  if ext = [46, 66, 80, 73, 67] ∨ ext = [46, 112, 103, 100] ∨ ext = [46, 80, 73, 67] then
    Kind.image
  else if ext = [46, 119, 97, 118] ∨ ext = [46, 111, 103, 103] then
    Kind.audio
  else
    Kind.unknown

/-- The classifier read off the observable behaviour: image exactly on a
lowercased extension .pgd, audio exactly on .wav or .ogg, unknown otherwise.
Stated from the claim's words, to be compared with determine_type. -/
def kindSpec (name : List Nat) : Kind :=
  let ext := toLowerBytes (splitextExt name)
  if ext = [46, 112, 103, 100] then Kind.image
  else if ext = [46, 119, 97, 118] ∨ ext = [46, 111, 103, 103] then Kind.audio
  else Kind.unknown

/-! ### Index records and the reader (ExPac.py, PacOpener / Pac2Opener) -/

/-- One index entry: name bytes, payload size, absolute payload offset. -/
structure Entry where
  name : List Nat
  size : Nat
  offset : Nat
deriving DecidableEq

/-- Strip trailing null bytes, as bytes.rstrip of a null byte argument. -/
def rstripZeros (l : List Nat) : List Nat := (l.reverse.dropWhile (fun b => b == 0)).reverse

/-- seek(pos) followed by struct.unpack of read(4): none when fewer than four
bytes remain (struct.error). -/
def readU32? (f : List Nat) (pos : Nat) : Option Nat :=
  match (f.drop pos).take 4 with
  | [b0, b1, b2, b3] => some (unpackLE4 b0 b1 b2 b3)
  | _ => none

/-- seek(pos) followed by read(nl).decode(ascii).rstrip of null bytes: none
when a byte at or above 128 makes the ASCII decode raise. -/
def readName? (f : List Nat) (pos nl : Nat) : Option (List Nat) :=
  if ((f.drop pos).take nl).all (fun b => decide (b < 128)) then
    some (rstripZeros ((f.drop pos).take nl))
  else none

/-- One iteration of PacOpener.read_index (ExPac.py lines 57-67): the name
slot, then size and offset as little-endian uint32s. -/
def readRecord? (f : List Nat) (pos nl : Nat) : Option Entry :=
  (readName? f pos nl).bind fun name =>
    (readU32? f (pos + nl)).bind fun size =>
      (readU32? f (pos + nl + 4)).map fun off => ⟨name, size, off⟩

/-- PacOpener.read_index of ExPac.py lines 54-68: count contiguous records of
stride nl + 8 starting at pos. -/
def read_index (f : List Nat) : Nat → Nat → Nat → Option (List Entry)
  | 0, _, _ => some []
  | n + 1, pos, nl =>
      (readRecord? f pos nl).bind fun e =>
        (read_index f n (pos + nl + 8) nl).map fun rest => e :: rest

/-- PacOpener.is_sane_count of ExPac.py lines 50-52. -/
abbrev is_sane_count (c : Nat) : Prop := 0 < c ∧ c < 100000

/-- PacOpener.try_open of ExPac.py lines 30-48.  The outer Option models a
raised exception (struct.error or UnicodeDecodeError); the inner Option is
the method's own None-for-no-match result. -/
def try_open_pac (f : List Nat) : Option (Option (List Entry)) :=
  match readU32? f 0 with
  | none => none
  | some count =>
    if is_sane_count count then
      match readU32? f (0x3FE + 0x20 + 4) with
      | none => none
      | some firstOffset =>
        if firstOffset = 0x3FE + count * (0x20 + 8) then
          (read_index f count 0x3FE 0x20).map some
        else
          match readU32? f (0x3FE + 0x10 + 4) with
          | none => none
          | some narrowOffset =>
            if narrowOffset = 0x3FE + count * (0x10 + 8) then
              (read_index f count 0x3FE 0x10).map some
            else some none
    else some none

/-- Pac2Opener.try_open of ExPac.py lines 99-113: count at offset 8, index at
0x804, fixed 32-byte name slots. -/
def try_open_pac2 (f : List Nat) : Option (Option (List Entry)) :=
  match readU32? f 8 with
  | none => none
  | some count =>
    if is_sane_count count then
      match readU32? f (0x804 + 0x20 + 4) with
      | none => none
      | some firstOffset =>
        if firstOffset = 0x804 + count * (0x20 + 8) then
          (read_index f count 0x804 0x20).map some
        else some none
    else some none

/-- The opener loop of extract_archive (ExPac.py lines 116-124): PacOpener
first, then Pac2Opener; a truthy (non-empty) entry list stops the loop. -/
def probeArchive (f : List Nat) : Option (Option (List Entry)) :=
  match try_open_pac f with
  | none => none
  | some (some es) => if es.isEmpty then try_open_pac2 f else some (some es)
  | some none => try_open_pac2 f

/-- The read step of PacOpener.open_entry (ExPac.py lines 71-73):
seek(entry.offset) then read(entry.size), short near end of file. -/
def readData (f : List Nat) (e : Entry) : List Nat := (f.drop e.offset).take e.size

/-- The pass-or-decode step of open_entry on the bytes it read (ExPac.py
lines 75-90): data[0] on empty data raises (none); data not starting with
0x24 passes through; anything else runs the payload decode. -/
def decodeBranch : List Nat → Option (List Nat)
  | [] => none
  | b :: rest => if b ≠ 36 then some (b :: rest) else decodeData (b :: rest)

/-- PacOpener.open_entry of ExPac.py lines 70-92: return the raw bytes for
image or audio entries and small entries; otherwise apply the pass-or-decode
step to the bytes read. -/
def open_entry (f : List Nat) (e : Entry) : Option (List Nat) :=
  if determine_type e.name = Kind.image ∨ determine_type e.name = Kind.audio ∨ e.size ≤ 16 then
    some (readData f e)
  else
    decodeBranch (readData f e)

/-- The extraction loop of extract_archive (ExPac.py lines 130-135), returning
each entry's name with its extracted bytes. -/
def extractEntries? (f : List Nat) : List Entry → Option (List (List Nat × List Nat))
  | [] => some []
  | e :: rest =>
      (open_entry f e).bind fun d =>
        (extractEntries? f rest).map fun r => (e.name, d) :: r

/-- extract_archive of ExPac.py lines 115-135 as a data transformation: probe,
then extract every entry.  Outer none = exception, inner none = the
failed-to-open report. -/
def extractAll? (f : List Nat) : Option (Option (List (List Nat × List Nat))) :=
  match probeArchive f with
  | none => none
  | some none => some none
  | some (some es) => (extractEntries? f es).map some

/-! ### The writer (PkPac.py, PacPacker) -/

/-- bytes.ljust with null fill: pad on the right up to width w, leaving longer
names unchanged. -/
def ljustZeros (name : List Nat) (w : Nat) : List Nat :=
  name ++ List.replicate (w - name.length) 0

/-- struct.pack of a uint32: raises (none) at 2^32 and beyond. -/
def packU32? (w : Nat) : Option (List Nat) :=
  if w < 4294967296 then some (packLE4 w) else none

/-- The running-offset assignment of PacPacker.collect_files
(PkPac.py lines 20-32). -/
def collectFilesAux : List (List Nat × List Nat) → Nat → List Entry
  | [], _ => []
  | (n, d) :: rest, off => ⟨n, d.length, off⟩ :: collectFilesAux rest (off + d.length)

/-- PacPacker.collect_files over named buffers: offsets start at
0x3FE + count * (0x20 + 8) and advance by each payload's size. -/
def collect_files (bs : List (List Nat × List Nat)) : List Entry :=
  collectFilesAux bs (0x3FE + bs.length * (0x20 + 8))

/-- One index record as written by PacPacker.write_archive (PkPac.py lines
43-46): the ASCII-encoded name (raising on non-ASCII) left-justified with
null fill, then size and offset as little-endian uint32s. -/
def indexRecord? (e : Entry) : Option (List Nat) :=
  if e.name.all (fun b => decide (b < 128)) then
    (packU32? e.size).bind fun sz =>
      (packU32? e.offset).map fun off => ljustZeros e.name 0x20 ++ sz ++ off
  else none

/-- The writer's extension allow-list of PkPac.py line 55:
jpg, png, bmp, wav, mp3, without dots. -/
def allowList : List (List Nat) :=
  [[106, 112, 103], [112, 110, 103], [98, 109, 112], [119, 97, 118], [109, 112, 51]]

/-- name.split of a dot, last element: everything after the last dot, or the
whole name when it has no dot. -/
def lastSegAfterDot (name : List Nat) : List Nat :=
  match rfind 46 name with
  | none => name
  | some i => name.drop (i + 1)

/-- The payload write decision of PkPac.py lines 54-56: encrypt unless the
lowercased last name segment is in the allow-list or the data has at most 16
bytes. -/
def payloadBytes? (p : List Nat × List Nat) : Option (List Nat) :=
  if toLowerBytes (lastSegAfterDot p.1) ∉ allowList ∧ 16 < p.2.length then
    encrypt_data p.2
  else some p.2

/-- Option-valued map over a list, used for the writer's per-entry loops. -/
def mapOpt {α β : Type} (g : α → Option β) : List α → Option (List β)
  | [] => some []
  | a :: rest => (g a).bind fun b => (mapOpt g rest).map fun r => b :: r

/-- PacPacker.write_archive of PkPac.py lines 34-58 over named buffers: the
4-byte count, null padding up to 0x3FE, the index records, then the
(conditionally encrypted) payloads in the same order. -/
def write_archive? (bs : List (List Nat × List Nat)) : Option (List Nat) :=
  (packU32? bs.length).bind fun cnt =>
    (mapOpt indexRecord? (collect_files bs)).bind fun idx =>
      (mapOpt payloadBytes? bs).map fun pays =>
        cnt ++ List.replicate (0x3FE - 4) 0 ++ idx.flatten ++ pays.flatten

/-- A name's cipher decision agrees between writer and reader: the lowercased
last segment is outside the writer's allow-list exactly when the reader
classifies the name as unknown. -/
abbrev extCipherConsistent (n : List Nat) : Prop :=
  toLowerBytes (lastSegAfterDot n) ∉ allowList ↔ determine_type n = Kind.unknown

/-! ### Concrete sample inputs used by witnesses and counterexamples -/

/-- A 20-byte tagged buffer. -/
def sampleBuf : List Nat := 36 :: List.replicate 19 0

/-- A 17-byte tagged buffer: its region after byte 16 has 1 byte. -/
def shortTagged : List Nat := 36 :: List.replicate 16 0

/-- A 21-byte tagged buffer: its region after byte 16 has 5 bytes. -/
def oddTagged : List Nat := 36 :: List.replicate 20 0

/-- The name a.txt. -/
def txtName : List Nat := [97, 46, 116, 120, 116]

/-- An unknown-kind entry of size 21 at offset 0. -/
def oddEntry : Entry := ⟨txtName, 21, 0⟩

/-- The name a.ogg. -/
def oggName : List Nat := [97, 46, 111, 103, 103]

/-- A single ogg-named tagged buffer of 20 bytes. -/
def oggBuffers : List (List Nat × List Nat) :=
  [(oggName, 36 :: (List.replicate 15 0 ++ [1, 2, 3, 4]))]

/-- A single plainly named small buffer. -/
def goodBuffers : List (List Nat × List Nat) := [([97], [36])]

/-- The name a.wav. -/
def wavName : List Nat := [97, 46, 119, 97, 118]

/-- An audio entry whose declared extent lies past the file's end. -/
def truncEntry : Entry := ⟨wavName, 5, 100⟩

/-- A 3-byte file. -/
def truncFile : List Nat := [0, 1, 2]

/-- An unknown-kind entry whose declared size 25 exceeds the 21-byte tagged
file, forcing a short read into the decode path. -/
def truncOddEntry : Entry := ⟨txtName, 25, 0⟩

/-- A single buffer for the layout witness. -/
def layoutBuffers : List (List Nat × List Nat) := [([98], [1, 2, 3])]

/-- A 33-byte name. -/
def longName : List Nat := List.replicate 33 97

/-- An entry bearing the 33-byte name. -/
def longEntry : Entry := ⟨longName, 0, 1062⟩

/-- A small entry for the record-layout witness. -/
def recEntry : Entry := ⟨[97], 7, 9⟩

/-- A 2100-byte file with count 1 and no matching first offset anywhere. -/
def mismatchFile : List Nat := 1 :: List.replicate 2099 0

/-- A 4-byte file holding only a sane count. -/
def shortFile : List Nat := [1, 0, 0, 0]

/-! ### Arithmetic facts about the word and byte transforms -/

theorem nextShift_lt (s : Nat) : nextShift s < 8 := by
  unfold nextShift; split <;> omega

theorem rotl_lt (s : Nat) {b : Nat} (hb : b < 256) : rotl s b < 256 := by
  have h1 : (b <<< s) % 256 < 256 := Nat.mod_lt _ (by omega)
  have h2 : b >>> (8 - s) < 256 := by
    have h := Nat.shiftRight_eq_div_pow b (8 - s)
    have h' := Nat.div_le_self b (2 ^ (8 - s))
    omega
  have h256 : (256 : Nat) = 2 ^ 8 := by norm_num
  calc rotl s b < 2 ^ 8 := Nat.or_lt_two_pow (h256 ▸ h1) (h256 ▸ h2)
    _ = 256 := h256.symm

theorem rotr_lt (s : Nat) {b : Nat} (hb : b < 256) : rotr s b < 256 := by
  have h1 : b >>> s < 256 := by
    have h := Nat.shiftRight_eq_div_pow b s
    have h' := Nat.div_le_self b (2 ^ s)
    omega
  have h2 : (b <<< (8 - s)) % 256 < 256 := Nat.mod_lt _ (by omega)
  have h256 : (256 : Nat) = 2 ^ 8 := by norm_num
  calc rotr s b < 2 ^ 8 := Nat.or_lt_two_pow (h256 ▸ h1) (h256 ▸ h2)
    _ = 256 := h256.symm

set_option maxRecDepth 4096 in
theorem rot_inverse : ∀ s < 8, ∀ b < 256, rotl s (rotr s b) = b ∧ rotr s (rotl s b) = b := by
  decide

theorem unpackLE4_lt {b0 b1 b2 b3 : Nat} (h0 : b0 < 256) (h1 : b1 < 256)
    (h2 : b2 < 256) (h3 : b3 < 256) : unpackLE4 b0 b1 b2 b3 < 4294967296 := by
  unfold unpackLE4; omega

theorem KEYMASK_lt : KEYMASK < 4294967296 := by decide

theorem xor_lt_u32 {a b : Nat} (ha : a < 4294967296) (hb : b < 4294967296) :
    a ^^^ b < 4294967296 := by
  have h : (4294967296 : Nat) = 2 ^ 32 := by norm_num
  exact h ▸ Nat.xor_lt_two_pow (h ▸ ha) (h ▸ hb)

theorem xor_xor_cancel (a b : Nat) : a ^^^ b ^^^ b = a := by
  rw [Nat.xor_assoc, Nat.xor_self, Nat.xor_zero]

theorem pack_unpack {w : Nat} (hw : w < 4294967296) :
    unpackLE4 (w % 256) (w / 256 % 256) (w / 256 / 256 % 256) (w / 256 / 256 / 256 % 256) = w := by
  unfold unpackLE4; omega

theorem unpack_pack {b0 b1 b2 b3 : Nat} (h0 : b0 < 256) (h1 : b1 < 256)
    (h2 : b2 < 256) (h3 : b3 < 256) :
    packLE4 (unpackLE4 b0 b1 b2 b3) = [b0, b1, b2, b3] := by
  simp only [packLE4, unpackLE4, List.cons.injEq, and_true]
  refine ⟨?_, ?_, ?_, ?_⟩ <;> omega

theorem unpackLE4_bytes {b0 b1 b2 b3 : Nat} (h0 : b0 < 256) (h1 : b1 < 256)
    (h2 : b2 < 256) (h3 : b3 < 256) :
    unpackLE4 b0 b1 b2 b3 % 256 = b0 ∧
    unpackLE4 b0 b1 b2 b3 / 256 % 256 = b1 ∧
    unpackLE4 b0 b1 b2 b3 / 256 / 256 % 256 = b2 ∧
    unpackLE4 b0 b1 b2 b3 / 256 / 256 / 256 % 256 = b3 := by
  unfold unpackLE4
  refine ⟨?_, ?_, ?_, ?_⟩ <;> omega

/-! ### Round-trip of the word loops -/

theorem encode_then_decode :
    ∀ (l : List Nat) (s : Nat), s < 8 → (∀ b ∈ l, b < 256) → l.length % 4 = 0 →
    ∃ r, encodeWords s l = some r ∧ r.length = l.length ∧ (∀ b ∈ r, b < 256) ∧
      decodeWords s r = some l
  | [], _, _, _, _ => ⟨[], by simp [encodeWords, decodeWords]⟩
  | [a], _, _, _, hl => absurd hl (by simp)
  | [a, b], _, _, _, hl => absurd hl (by simp)
  | [a, b, c], _, _, _, hl => absurd hl (by simp)
  | b0 :: b1 :: b2 :: b3 :: rest, s, hs, hb, hl => by
      have hb0 : b0 < 256 := hb b0 (by simp)
      have hb1 : b1 < 256 := hb b1 (by simp)
      have hb2 : b2 < 256 := hb b2 (by simp)
      have hb3 : b3 < 256 := hb b3 (by simp)
      have hrest : ∀ x ∈ rest, x < 256 := fun x hx => hb x (by simp [hx])
      have hlen : rest.length % 4 = 0 := by simp only [List.length_cons] at hl; omega
      obtain ⟨r, her, hrl, hrb, hdr⟩ :=
        encode_then_decode rest (nextShift s) (nextShift_lt s) hrest hlen
      have hwlt : unpackLE4 b0 b1 b2 b3 < 4294967296 := unpackLE4_lt hb0 hb1 hb2 hb3
      have hw'lt : unpackLE4 b0 b1 b2 b3 ^^^ KEYMASK < 4294967296 :=
        xor_lt_u32 hwlt KEYMASK_lt
      refine ⟨rotr s ((unpackLE4 b0 b1 b2 b3 ^^^ KEYMASK) % 256)
          :: (unpackLE4 b0 b1 b2 b3 ^^^ KEYMASK) / 256 % 256
          :: (unpackLE4 b0 b1 b2 b3 ^^^ KEYMASK) / 256 / 256 % 256
          :: (unpackLE4 b0 b1 b2 b3 ^^^ KEYMASK) / 256 / 256 / 256 % 256 :: r,
        ?_, ?_, ?_, ?_⟩
      · simp [encodeWords, her]
      · simp [hrl]
      · intro x hx
        simp only [List.mem_cons] at hx
        rcases hx with rfl | rfl | rfl | rfl | hx
        · exact rotr_lt s (Nat.mod_lt _ (by omega))
        · exact Nat.mod_lt _ (by omega)
        · exact Nat.mod_lt _ (by omega)
        · exact Nat.mod_lt _ (by omega)
        · exact hrb x hx
      · have hrot := (rot_inverse s hs ((unpackLE4 b0 b1 b2 b3 ^^^ KEYMASK) % 256)
          (Nat.mod_lt _ (by omega))).1
        simp only [decodeWords, hdr, Option.map_some', hrot, pack_unpack hw'lt,
          xor_xor_cancel, unpack_pack hb0 hb1 hb2 hb3]
        simp

theorem decode_then_encode :
    ∀ (l : List Nat) (s : Nat), s < 8 → (∀ b ∈ l, b < 256) → l.length % 4 = 0 →
    ∃ r, decodeWords s l = some r ∧ r.length = l.length ∧ (∀ b ∈ r, b < 256) ∧
      encodeWords s r = some l
  | [], _, _, _, _ => ⟨[], by simp [encodeWords, decodeWords]⟩
  | [a], _, _, _, hl => absurd hl (by simp)
  | [a, b], _, _, _, hl => absurd hl (by simp)
  | [a, b, c], _, _, _, hl => absurd hl (by simp)
  | b0 :: b1 :: b2 :: b3 :: rest, s, hs, hb, hl => by
      have hb0 : b0 < 256 := hb b0 (by simp)
      have hb1 : b1 < 256 := hb b1 (by simp)
      have hb2 : b2 < 256 := hb b2 (by simp)
      have hb3 : b3 < 256 := hb b3 (by simp)
      have hrest : ∀ x ∈ rest, x < 256 := fun x hx => hb x (by simp [hx])
      have hlen : rest.length % 4 = 0 := by simp only [List.length_cons] at hl; omega
      obtain ⟨r, hdr, hrl, hrb, her⟩ :=
        decode_then_encode rest (nextShift s) (nextShift_lt s) hrest hlen
      have hrlt : rotl s b0 < 256 := rotl_lt s hb0
      have hvlt : unpackLE4 (rotl s b0) b1 b2 b3 < 4294967296 :=
        unpackLE4_lt hrlt hb1 hb2 hb3
      have hult : unpackLE4 (rotl s b0) b1 b2 b3 ^^^ KEYMASK < 4294967296 :=
        xor_lt_u32 hvlt KEYMASK_lt
      obtain ⟨hm0, hm1, hm2, hm3⟩ := unpackLE4_bytes hrlt hb1 hb2 hb3
      refine ⟨packLE4 (unpackLE4 (rotl s b0) b1 b2 b3 ^^^ KEYMASK) ++ r, ?_, ?_, ?_, ?_⟩
      · simp [decodeWords, hdr]
      · simp [packLE4, hrl]
      · intro x hx
        simp only [packLE4, List.cons_append, List.nil_append, List.mem_cons] at hx
        rcases hx with rfl | rfl | rfl | rfl | hx
        · exact Nat.mod_lt _ (by omega)
        · exact Nat.mod_lt _ (by omega)
        · exact Nat.mod_lt _ (by omega)
        · exact Nat.mod_lt _ (by omega)
        · exact hrb x hx
      · simp only [packLE4, List.cons_append, List.nil_append]
        simp only [encodeWords, her, Option.map_some']
        rw [pack_unpack hult, xor_xor_cancel, hm0, hm1, hm2, hm3,
          (rot_inverse s hs b0 hb0).2]

theorem encodeWords_length :
    ∀ (l : List Nat) (s : Nat) (r : List Nat), encodeWords s l = some r → r.length = l.length
  | [], _, r, h => by simp [encodeWords] at h; subst h; rfl
  | [_], _, _, h => by simp [encodeWords] at h
  | [_, _], _, _, h => by simp [encodeWords] at h
  | [_, _, _], _, _, h => by simp [encodeWords] at h
  | _ :: _ :: _ :: _ :: rest, s, r, h => by
      simp only [encodeWords, Option.map_eq_some'] at h
      obtain ⟨r', hr', rfl⟩ := h
      have ih := encodeWords_length rest (nextShift s) r' hr'
      simp [ih]

theorem decodeWords_none_iff :
    ∀ (l : List Nat) (s : Nat), decodeWords s l = none ↔ l.length % 4 ≠ 0
  | [], _ => by simp [decodeWords]
  | [_], _ => by simp [decodeWords]
  | [_, _], _ => by simp [decodeWords]
  | [_, _, _], _ => by simp [decodeWords]
  | _ :: _ :: _ :: _ :: rest, s => by
      have ih := decodeWords_none_iff rest (nextShift s)
      simp only [decodeWords, Option.map_eq_none', List.length_cons, ih]
      omega

theorem decodeData_none_iff (d : List Nat) :
    decodeData d = none ↔ 20 ≤ d.length ∧ (d.length - 16) % 4 ≠ 0 := by
  unfold decodeData
  split
  · rename_i hguard
    simp only [Option.map_eq_none', decodeWords_none_iff, List.length_drop]
    omega
  · rename_i hguard
    simp only [reduceCtorEq, false_iff, not_and]
    omega

theorem shiftSched_closed (n : Nat) : shiftSched n = (4 + n) % 8 := by
  induction n with
  | zero => rfl
  | succ k ih =>
    simp only [shiftSched, ih, nextShift]
    split <;> omega

/-! ### Short list helpers -/

theorem take_append_of_len {α : Type} {A : List α} {k : Nat} (B : List α)
    (h : A.length = k) : (A ++ B).take k = A := by
  subst h; simp

theorem drop_append_of_len {α : Type} {A : List α} {k : Nat} (B : List α)
    (h : A.length = k) : (A ++ B).drop k = B := by
  subst h; simp

/-! ### C2: involution of the payload cipher -/

/-- C2: for every buffer whose first byte is 0x24, whose length is at least 20
and whose length minus 16 is a multiple of 4, the packing transform
encrypt_data followed by the extraction transform decodeData returns the
buffer unchanged, and decodeData followed by encrypt_data also returns the
buffer unchanged. -/
theorem claim_cipher_involution (buf : List Nat) (hb : ∀ x ∈ buf, x < 256)
    (hhead : buf.head? = some 36) (hlen : 20 ≤ buf.length)
    (hal : (buf.length - 16) % 4 = 0) :
    (encrypt_data buf).bind decodeData = some buf ∧
    (decodeData buf).bind encrypt_data = some buf := by
  obtain ⟨t, rfl⟩ : ∃ t, buf = 36 :: t := by
    cases buf with
    | nil => simp at hhead
    | cons b t => simp at hhead; exact ⟨t, by rw [hhead]⟩
  have htlen : 19 ≤ t.length := by simp at hlen; omega
  have hreg256 : ∀ x ∈ (36 :: t).drop 16, x < 256 := fun x hx =>
    hb x (List.mem_of_mem_drop hx)
  have hreglen : (((36 : Nat) :: t).drop 16).length % 4 = 0 := by
    simp only [List.length_drop]; exact hal
  have hguard : (((36 : Nat) :: t).length - 16) / 4 > 0 := by
    simp only [List.length_cons]; omega
  have htake : (((36 : Nat) :: t).take 16).length = 16 := by
    simp only [List.length_take, List.length_cons]; omega
  constructor
  · obtain ⟨r, her, hrl, hrb, hdr⟩ :=
      encode_then_decode ((36 :: t).drop 16) 4 (by omega) hreg256 hreglen
    have henc : encrypt_data (36 :: t) = some ((36 :: t).take 16 ++ r) := by
      simp only [encrypt_data, ne_eq, not_true_eq_false, if_false, if_pos hguard, her,
        Option.map_some']
    rw [henc, Option.some_bind]
    have hlen2 : ((((36 : Nat) :: t).take 16 ++ r)).length = ((36 : Nat) :: t).length := by
      simp only [List.length_append, htake, hrl, List.length_drop, List.length_cons]
      omega
    unfold decodeData
    rw [if_pos (by rw [hlen2]; exact hguard), drop_append_of_len r htake, hdr,
      Option.map_some', take_append_of_len r htake, List.take_append_drop]
  · obtain ⟨r, hdr, hrl, hrb, her⟩ :=
      decode_then_encode ((36 :: t).drop 16) 4 (by omega) hreg256 hreglen
    have hdec : decodeData (36 :: t) = some ((36 :: t).take 16 ++ r) := by
      unfold decodeData
      rw [if_pos hguard, hdr, Option.map_some']
    rw [hdec, Option.some_bind]
    have ht15 : (t.take 15).length = 15 := by
      simp only [List.length_take]; omega
    show encrypt_data (36 :: (t.take 15 ++ r)) = some (36 :: t)
    have hguard2 : (((36 : Nat) :: (t.take 15 ++ r)).length - 16) / 4 > 0 := by
      have : r.length = t.length - 15 := by
        rw [hrl]; simp only [List.length_drop, List.length_cons]; omega
      simp only [List.length_cons, List.length_append, ht15, this]
      omega
    have hdropped : (((36 : Nat) :: (t.take 15 ++ r)).drop 16) = r := by
      show ((t.take 15 ++ r)).drop 15 = r
      exact drop_append_of_len r ht15
    have htk : (((36 : Nat) :: (t.take 15 ++ r)).take 16) = 36 :: t.take 15 := by
      show (36 : Nat) :: (t.take 15 ++ r).take 15 = 36 :: t.take 15
      rw [take_append_of_len r ht15]
    simp only [encrypt_data, ne_eq, not_true_eq_false, if_false, if_pos hguard2,
      hdropped, her, Option.map_some', htk]
    show some ((36 : Nat) :: (t.take 15 ++ t.drop 15)) = some (36 :: t)
    rw [List.take_append_drop]

/-- Witness for claim_cipher_involution at the concrete 20-byte sample buffer. -/
theorem claim_cipher_involution_witness :
    (encrypt_data sampleBuf).bind decodeData = some sampleBuf ∧
    (decodeData sampleBuf).bind encrypt_data = some sampleBuf :=
  claim_cipher_involution sampleBuf (by decide) (by decide) (by decide) (by decide)

/-! ### C8: the shift schedule -/

/-- C8: the per-word shift starts at 4 for the word at byte position 16, is
stepped by nextShift after each word, wraps to 0 above 7, equals
[4,5,6,7,0,1,2,3,4,5] on word indices 0..9, has period 8 and stays within
0..7; both the extraction loop (decodeData) and the packing loop
(encrypt_data) run their word transforms from the same initial shift
shiftSched 0 = 4 at byte position 16. -/
theorem claim_shift_schedule :
    shiftSched 0 = 4 ∧
    (∀ n, shiftSched (n + 1) = nextShift (shiftSched n)) ∧
    (List.range 10).map shiftSched = [4, 5, 6, 7, 0, 1, 2, 3, 4, 5] ∧
    (∀ n, shiftSched (n + 8) = shiftSched n) ∧
    (∀ n, shiftSched n ≤ 7) ∧
    (∀ d, decodeData d =
      if (d.length - 16) / 4 > 0 then
        (decodeWords (shiftSched 0) (d.drop 16)).map (fun r => d.take 16 ++ r)
      else some d) ∧
    (∀ d, d.head? = some 36 → 20 ≤ d.length →
      encrypt_data d = (encodeWords (shiftSched 0) (d.drop 16)).map (fun r => d.take 16 ++ r)) := by
  refine ⟨rfl, fun n => rfl, by decide, ?_, ?_, fun d => rfl, ?_⟩
  · intro n; rw [shiftSched_closed, shiftSched_closed]; omega
  · intro n; rw [shiftSched_closed]; omega
  · intro d h36 hlen
    obtain ⟨t, rfl⟩ : ∃ t, d = 36 :: t := by
      cases d with
      | nil => simp at h36
      | cons b t => simp at h36; exact ⟨t, by rw [h36]⟩
    have hg : (((36 : Nat) :: t).length - 16) / 4 > 0 := by
      simp only [List.length_cons] at hlen ⊢; omega
    simp only [encrypt_data, ne_eq, not_true_eq_false, if_false, if_pos hg]
    rfl

/-- Witness for claim_shift_schedule: its packing-loop component applied to
the concrete 20-byte sample buffer. -/
theorem claim_shift_schedule_witness :
    encrypt_data sampleBuf =
      (encodeWords (shiftSched 0) (sampleBuf.drop 16)).map (fun r => sampleBuf.take 16 ++ r) :=
  claim_shift_schedule.2.2.2.2.2.2 sampleBuf (by decide) (by decide)

/-! ### C10: partiality of the extraction decode -/

/-- C10 counterexample: the 17-byte tagged buffer satisfies the cipher
apply-condition and its region after byte 16 has length 1, not a multiple of
4, yet the decode transform is total on it (the guarded word count is 0), so
the decode transform is not total only on multiple-of-4 region lengths. -/
theorem claim_decode_partial_counterexample :
    16 < shortTagged.length ∧ shortTagged.head? = some 36 ∧
    determine_type txtName = Kind.unknown ∧
    (shortTagged.length - 16) % 4 ≠ 0 ∧
    decodeData shortTagged = some shortTagged := by decide

/-- C10 amended: the extraction decode returns no result exactly on payloads
of length at least 20 whose length minus 16 is not a multiple of 4; for
lengths 17 to 19 the guarded word count is 0 and the payload is returned
unchanged.  In particular the 21-byte tagged payload of the unknown-kind
entry makes the final loop iteration's 4-byte unpack fail, so open_entry
returns no result for it. -/
theorem claim_decode_partiality :
    (∀ d, decodeData d = none ↔ 20 ≤ d.length ∧ (d.length - 16) % 4 ≠ 0) ∧
    decodeData oddTagged = none ∧
    open_entry oddTagged oddEntry = none :=
  ⟨decodeData_none_iff, by decide, by decide⟩

/-! ### C9: the kind classifier -/

theorem toLowerByte_ne_upper (b : Nat) : toLowerByte b ≠ 66 ∧ toLowerByte b ≠ 80 := by
  unfold toLowerByte; split <;> omega

theorem toLowerBytes_ne_BPIC (l : List Nat) : toLowerBytes l ≠ [46, 66, 80, 73, 67] := by
  intro h
  have h1 : (toLowerBytes l)[1]? = some 66 := by rw [h]; rfl
  rw [toLowerBytes, List.getElem?_map] at h1
  cases h2 : l[1]? with
  | none => rw [h2] at h1; simp at h1
  | some b =>
    rw [h2] at h1
    simp only [Option.map_some', Option.some.injEq] at h1
    exact (toLowerByte_ne_upper b).1 h1

theorem toLowerBytes_ne_PIC (l : List Nat) : toLowerBytes l ≠ [46, 80, 73, 67] := by
  intro h
  have h1 : (toLowerBytes l)[1]? = some 80 := by rw [h]; rfl
  rw [toLowerBytes, List.getElem?_map] at h1
  cases h2 : l[1]? with
  | none => rw [h2] at h1; simp at h1
  | some b =>
    rw [h2] at h1
    simp only [Option.map_some', Option.some.injEq] at h1
    exact (toLowerByte_ne_upper b).2 h1

/-- C9: the reader's classifier lowercases the extension before comparing, so
the uppercase literals .BPIC and .PIC in its image list can never match: on
every name it agrees with the classifier that maps a lowercased extension
.pgd to image, .wav or .ogg to audio, and everything else to unknown.  In
particular a.PIC and a.BPIC are classified unknown while a.pgd is image. -/
theorem claim_kind_classifier :
    (∀ name, determine_type name = kindSpec name) ∧
    determine_type [97, 46, 80, 73, 67] = Kind.unknown ∧
    determine_type [97, 46, 66, 80, 73, 67] = Kind.unknown ∧
    determine_type [97, 46, 112, 103, 100] = Kind.image := by
  refine ⟨?_, by decide, by decide, by decide⟩
  intro name
  have h1 := toLowerBytes_ne_BPIC (splitextExt name)
  have h2 := toLowerBytes_ne_PIC (splitextExt name)
  simp only [determine_type, kindSpec, h1, h2, false_or, or_false]

/-! ### C4: index records and long names -/

set_option maxRecDepth 100000 in
/-- C4 counterexample: the writer accepts a 33-byte name: the build succeeds
rather than failing, and bytes.ljust leaves the name unpadded at 33 bytes, so
the record is not rejected before being written. -/
theorem claim_name_too_long_counterexample :
    32 < longName.length ∧
    (write_archive? [(longName, [])]).isSome = true ∧
    (ljustZeros longName 0x20).length = 33 := by decide

/-- C4 amended: the writer never fails on a long name: every ASCII name with
in-range size and offset yields a record of the name left-justified and
null-padded to exactly 32 bytes followed by the two little-endian uint32s, so
40 bytes, when the name fits; a longer name is written unmodified with no
padding, yielding a record of name length + 8 bytes that corrupts the index
stride. -/
theorem claim_index_record_layout (e : Entry)
    (hascii : ∀ b ∈ e.name, b < 128) (hsz : e.size < 4294967296)
    (hoff : e.offset < 4294967296) :
    indexRecord? e = some (ljustZeros e.name 0x20 ++ packLE4 e.size ++ packLE4 e.offset) ∧
    (e.name.length ≤ 32 →
      (ljustZeros e.name 0x20 ++ packLE4 e.size ++ packLE4 e.offset).length = 40) ∧
    (32 < e.name.length →
      ljustZeros e.name 0x20 = e.name ∧
      (ljustZeros e.name 0x20 ++ packLE4 e.size ++ packLE4 e.offset).length =
        e.name.length + 8) := by
  refine ⟨?_, ?_, ?_⟩
  · have hall : e.name.all (fun b => decide (b < 128)) = true := by
      rw [List.all_eq_true]; intro x hx; simpa using hascii x hx
    simp only [indexRecord?, hall, if_true, packU32?, if_pos hsz, if_pos hoff,
      Option.some_bind, Option.map_some']
  · intro hfit
    simp only [List.length_append, ljustZeros, List.length_replicate, packLE4,
      List.length_cons, List.length_nil]
    omega
  · intro hlong
    have hz : 0x20 - e.name.length = 0 := by omega
    constructor
    · unfold ljustZeros
      rw [hz]
      simp
    · simp [ljustZeros, packLE4, hz]

/-- Witness for claim_index_record_layout at a concrete small entry. -/
theorem claim_index_record_layout_witness :
    indexRecord? recEntry =
      some (ljustZeros recEntry.name 0x20 ++ packLE4 recEntry.size ++ packLE4 recEntry.offset) :=
  (claim_index_record_layout recEntry (by decide) (by decide) (by decide)).1

/-! ### C5: reads near end of file -/

/-- C5 counterexample: an audio entry whose declared extent lies past the end
of the 3-byte file extracts successfully to the empty byte string: the short
read is returned silently, no truncation failure occurs. -/
theorem claim_truncated_read_counterexample :
    truncFile.length < truncEntry.offset + truncEntry.size ∧
    open_entry truncFile truncEntry = some [] := by decide

/-- C5 amended: extraction performs no truncation check and has no
TruncatedRead error.  For every entry, the read step yields
min entry.size (length - offset) bytes: exactly entry.size when
offset + size fits in the file and silently fewer otherwise.  A pass-through
entry (image or audio kind, or size at most 16) returns the short result
without failure; every other entry hands the bytes read to the
pass-or-decode step, which returns data not led by 0x24 unchanged, raises on
an empty read (data[0] of no bytes) and can fail inside the word decode on a
short misaligned read, as the concrete unknown-kind size-25 entry shows over
the 21-byte tagged file and over the empty file: those failures come from
the decode, never from a truncation check. -/
theorem claim_extract_read_extent (f : List Nat) (e : Entry) :
    (readData f e).length = min e.size (f.length - e.offset) ∧
    (e.offset + e.size ≤ f.length → (readData f e).length = e.size) ∧
    (determine_type e.name = Kind.image ∨ determine_type e.name = Kind.audio ∨ e.size ≤ 16 →
      open_entry f e = some (readData f e)) ∧
    (¬(determine_type e.name = Kind.image ∨ determine_type e.name = Kind.audio ∨ e.size ≤ 16) →
      open_entry f e = decodeBranch (readData f e)) ∧
    decodeBranch [] = none ∧
    (∀ b rest, b ≠ 36 → decodeBranch (b :: rest) = some (b :: rest)) ∧
    open_entry [] truncOddEntry = none ∧
    (oddTagged.length < truncOddEntry.size ∧ open_entry oddTagged truncOddEntry = none) := by
  refine ⟨?_, ?_, ?_, ?_, rfl, ?_, by decide, by decide⟩
  · unfold readData
    simp
  · intro h
    unfold readData
    simp only [List.length_take, List.length_drop]
    omega
  · intro hk
    unfold open_entry
    rw [if_pos hk]
  · intro hk
    unfold open_entry
    rw [if_neg hk]
  · intro b rest hb
    show (if b ≠ 36 then some (b :: rest) else decodeData (b :: rest)) = some (b :: rest)
    rw [if_pos hb]

/-- Witness for claim_extract_read_extent at the concrete audio entry and
3-byte file, discharging the pass-through and exact-read hypotheses. -/
theorem claim_extract_read_extent_witness :
    (readData truncFile truncEntry).length =
      min truncEntry.size (truncFile.length - truncEntry.offset) ∧
    open_entry truncFile truncEntry = some (readData truncFile truncEntry) :=
  ⟨(claim_extract_read_extent truncFile truncEntry).1,
   (claim_extract_read_extent truncFile truncEntry).2.2.1 (by decide)⟩

/-! ### C6: offsets and layout of a freshly written archive -/

theorem collectFilesAux_length (bs : List (List Nat × List Nat)) (base : Nat) :
    (collectFilesAux bs base).length = bs.length := by
  induction bs generalizing base with
  | nil => rfl
  | cons p rest ih =>
    obtain ⟨n, d⟩ := p
    simp [collectFilesAux, ih]

theorem collectFilesAux_offset (bs : List (List Nat × List Nat)) (base i : Nat) :
    ((collectFilesAux bs base)[i]?.map Entry.offset) =
      if i < bs.length then
        some (base + ((bs.take i).map (fun p => p.2.length)).sum)
      else none := by
  induction bs generalizing base i with
  | nil => simp [collectFilesAux]
  | cons p rest ih =>
    obtain ⟨n, d⟩ := p
    cases i with
    | zero => simp [collectFilesAux]
    | succ j =>
      have := ih (base + d.length) j
      simp only [collectFilesAux, List.getElem?_cons_succ, this, List.length_cons,
        List.take_succ_cons, List.map_cons, List.sum_cons]
      split <;> split <;>
        first
        | rfl
        | (simp only [Option.some.injEq]; omega)
        | (exfalso; omega)

theorem write_archive_decomp {bs : List (List Nat × List Nat)} {out : List Nat}
    (h : write_archive? bs = some out) :
    bs.length < 4294967296 ∧
    ∃ idx pays, mapOpt indexRecord? (collect_files bs) = some idx ∧
      mapOpt payloadBytes? bs = some pays ∧
      out = packLE4 bs.length ++ List.replicate (0x3FE - 4) 0 ++ idx.flatten ++ pays.flatten := by
  unfold write_archive? packU32? at h
  split at h
  · rename_i hlt
    simp only [Option.some_bind] at h
    cases hidx : mapOpt indexRecord? (collect_files bs) with
    | none =>
      rw [hidx] at h
      simp only [Option.none_bind] at h
      exact Option.noConfusion h
    | some idx =>
      rw [hidx] at h
      simp only [Option.some_bind] at h
      cases hpay : mapOpt payloadBytes? bs with
      | none =>
        rw [hpay] at h
        simp only [Option.map_none'] at h
        exact Option.noConfusion h
      | some pays =>
        rw [hpay] at h
        simp only [Option.map_some', Option.some.injEq] at h
        exact ⟨hlt, idx, pays, rfl, rfl, h.symm⟩
  · simp only [Option.none_bind] at h
    exact Option.noConfusion h

/-- C6: for every archive the writer builds, the first collected entry's
offset is 0x3FE + count * 40 with count the number of buffers (the count
written in the header bytes), entry i's offset adds the sizes of the
preceding payloads in supplied order, and the output bytes are the 4-byte
count, zero padding up to 0x3FE, the index records, then the payloads in
entry order. -/
theorem claim_writer_layout (bs : List (List Nat × List Nat)) (out : List Nat)
    (hw : write_archive? bs = some out) :
    ((collect_files bs)[0]?.map Entry.offset =
      if 0 < bs.length then some (0x3FE + bs.length * (0x20 + 8)) else none) ∧
    (∀ i, ((collect_files bs)[i]?.map Entry.offset) =
      if i < bs.length then
        some (0x3FE + bs.length * (0x20 + 8) + ((bs.take i).map (fun p => p.2.length)).sum)
      else none) ∧
    ∃ idx pays, mapOpt indexRecord? (collect_files bs) = some idx ∧
      mapOpt payloadBytes? bs = some pays ∧
      out = packLE4 bs.length ++ List.replicate (0x3FE - 4) 0 ++ idx.flatten ++ pays.flatten := by
  refine ⟨?_, ?_, (write_archive_decomp hw).2⟩
  · have h := collectFilesAux_offset bs (0x3FE + bs.length * (0x20 + 8)) 0
    simpa [collect_files] using h
  · intro i
    have h := collectFilesAux_offset bs (0x3FE + bs.length * (0x20 + 8)) i
    simpa [collect_files] using h

set_option maxRecDepth 100000 in
/-- Witness for claim_writer_layout at the concrete single-buffer build. -/
theorem claim_writer_layout_witness :
    (collect_files layoutBuffers)[0]?.map Entry.offset =
      if 0 < layoutBuffers.length then
        some (0x3FE + layoutBuffers.length * (0x20 + 8))
      else none :=
  (claim_writer_layout layoutBuffers ((write_archive? layoutBuffers).getD []) (by rfl)).1

/-! ### C7: classic-wide priority -/

theorem read_index_length :
    ∀ (n : Nat) (f : List Nat) (pos nl : Nat) (es : List Entry),
      read_index f n pos nl = some es → es.length = n
  | 0, f, pos, nl, es, h => by
      simp only [read_index, Option.some.injEq] at h
      subst h; rfl
  | n + 1, f, pos, nl, es, h => by
      simp only [read_index] at h
      cases hr : readRecord? f pos nl with
      | none => rw [hr] at h; simp at h
      | some e =>
        rw [hr] at h
        simp only [Option.some_bind] at h
        cases hrest : read_index f n (pos + nl + 8) nl with
        | none => rw [hrest] at h; simp at h
        | some rest =>
          rw [hrest] at h
          simp only [Option.map_some', Option.some.injEq] at h
          subst h
          simp [read_index_length n f (pos + nl + 8) nl rest hrest]

theorem try_open_wide_accepts {f : List Nat} {count : Nat} {es : List Entry}
    (hc : readU32? f 0 = some count) (hs : is_sane_count count)
    (hfo : readU32? f (0x3FE + 0x20 + 4) = some (0x3FE + count * (0x20 + 8)))
    (hidx : read_index f count 0x3FE 0x20 = some es) :
    try_open_pac f = some (some es) ∧ probeArchive f = some (some es) := by
  have hto : try_open_pac f = some (some es) := by
    simp only [try_open_pac, hc, hfo, hidx, Option.map_some', eq_self_iff_true, if_true]
    rw [if_pos hs]
  have hne : es ≠ [] := by
    have hl := read_index_length count f 0x3FE 0x20 es hidx
    obtain ⟨h1, h2⟩ := hs
    intro h
    subst h
    simp at hl
    omega
  refine ⟨hto, ?_⟩
  cases es with
  | nil => exact absurd rfl hne
  | cons e rest =>
    unfold probeArchive
    rw [hto]
    simp [List.isEmpty_cons]

/-- C7: a well-formed classic-wide archive (sane count and stored first
offset equal to 0x3FE + count * 40) is always accepted by the classic-wide
candidate: try_open delegates to the wide index decode without consulting the
narrow check, and the opener loop stops at PacOpener without trying
Pac2Opener, whatever the narrow or tagged parameters would have said. -/
theorem claim_classic_wide_priority (f : List Nat) (count : Nat) (es : List Entry)
    (hc : readU32? f 0 = some count) (hs : is_sane_count count)
    (hfo : readU32? f (0x3FE + 0x20 + 4) = some (0x3FE + count * (0x20 + 8)))
    (hidx : read_index f count 0x3FE 0x20 = some es) :
    try_open_pac f = some (some es) ∧ probeArchive f = some (some es) :=
  try_open_wide_accepts hc hs hfo hidx

set_option maxRecDepth 100000 in
/-- Witness for claim_classic_wide_priority at the concrete single-buffer
archive. -/
theorem claim_classic_wide_priority_witness :
    try_open_pac ((write_archive? layoutBuffers).getD []) = some (some [⟨[98], 3, 1062⟩]) ∧
    probeArchive ((write_archive? layoutBuffers).getD []) = some (some [⟨[98], 3, 1062⟩]) :=
  claim_classic_wide_priority ((write_archive? layoutBuffers).getD []) 1 [⟨[98], 3, 1062⟩]
    (by rfl) (by decide) (by rfl) (by rfl)

/-! ### C3: probe rejection and probe exceptions -/

set_option maxRecDepth 100000 in
/-- C3 counterexample: on the 4-byte file 01 00 00 00 (a sane count and
nothing else) the probe raises a struct.error while unpacking the wide
candidate's short first-offset read, rather than returning the no-match
result: the probe does throw on malformed input. -/
theorem claim_probe_throws_counterexample :
    readU32? shortFile 0 = some 1 ∧ is_sane_count 1 ∧
    probeArchive shortFile = none := by decide

/-- C3 amended: when every probed read succeeds, the probe never yields a
partial result: a count of 0 or of 100000 and above, or a first-offset
mismatch at each of the classic-wide, classic-narrow and tagged candidates,
always gives the no-match result.  (On input too short for the count or
first-offset fields the probe instead raises, per the counterexample.) -/
theorem claim_probe_rejection (f : List Nat) (c1 c2 : Nat)
    (h1 : readU32? f 0 = some c1) (h2 : readU32? f 8 = some c2)
    (hPacW : is_sane_count c1 →
      ∃ fo, readU32? f (0x3FE + 0x20 + 4) = some fo ∧ fo ≠ 0x3FE + c1 * (0x20 + 8))
    (hPacN : is_sane_count c1 →
      ∃ fo, readU32? f (0x3FE + 0x10 + 4) = some fo ∧ fo ≠ 0x3FE + c1 * (0x10 + 8))
    (hPac2 : is_sane_count c2 →
      ∃ fo, readU32? f (0x804 + 0x20 + 4) = some fo ∧ fo ≠ 0x804 + c2 * (0x20 + 8)) :
    probeArchive f = some none := by
  have hp1 : try_open_pac f = some none := by
    by_cases hs : is_sane_count c1
    · obtain ⟨fo1, hr1, hne1⟩ := hPacW hs
      obtain ⟨fo2, hr2, hne2⟩ := hPacN hs
      simp only [try_open_pac, h1, hr1, hr2]
      rw [if_pos hs, if_neg hne1, if_neg hne2]
    · simp only [try_open_pac, h1]
      rw [if_neg hs]
  have hp2 : try_open_pac2 f = some none := by
    by_cases hs : is_sane_count c2
    · obtain ⟨fo3, hr3, hne3⟩ := hPac2 hs
      simp only [try_open_pac2, h2, hr3]
      rw [if_pos hs, if_neg hne3]
    · simp only [try_open_pac2, h2]
      rw [if_neg hs]
  unfold probeArchive
  rw [hp1]
  exact hp2

set_option maxRecDepth 100000 in
/-- Witness for claim_probe_rejection at the concrete all-mismatch file. -/
theorem claim_probe_rejection_witness :
    probeArchive mismatchFile = some none :=
  claim_probe_rejection mismatchFile 1 0 (by rfl) (by rfl)
    (fun _ => ⟨0, by rfl, by decide⟩)
    (fun _ => ⟨0, by rfl, by decide⟩)
    (fun hs => absurd hs (by decide))

/-! ### C1: infrastructure for the full round trip -/

theorem drop_add {α : Type} (f : List α) (a b : Nat) : f.drop (a + b) = (f.drop a).drop b :=
  (List.drop_drop b a f).symm

theorem mapOpt_cons_inv {α β : Type} {g : α → Option β} {a : α} {l : List α} {r : List β}
    (h : mapOpt g (a :: l) = some r) :
    ∃ b rs, g a = some b ∧ mapOpt g l = some rs ∧ r = b :: rs := by
  simp only [mapOpt] at h
  cases hg : g a with
  | none => rw [hg] at h; simp at h
  | some b =>
    rw [hg] at h
    simp only [Option.some_bind] at h
    cases hl : mapOpt g l with
    | none => rw [hl] at h; simp at h
    | some rs =>
      rw [hl] at h
      simp only [Option.map_some', Option.some.injEq] at h
      exact ⟨b, rs, rfl, rfl, h.symm⟩

theorem readU32_of_prefix {f : List Nat} {pos w : Nat} {rest : List Nat}
    (h : f.drop pos = packLE4 w ++ rest) (hwlt : w < 4294967296) :
    readU32? f pos = some w := by
  unfold readU32?
  rw [h, take_append_of_len rest (by simp [packLE4])]
  show some (unpackLE4 (w % 256) (w / 256 % 256) (w / 256 / 256 % 256) (w / 256 / 256 / 256 % 256))
    = some w
  rw [pack_unpack hwlt]

theorem encodeWords_none_iff :
    ∀ (l : List Nat) (s : Nat), encodeWords s l = none ↔ l.length % 4 ≠ 0
  | [], _ => by simp [encodeWords]
  | [_], _ => by simp [encodeWords]
  | [_, _], _ => by simp [encodeWords]
  | [_, _, _], _ => by simp [encodeWords]
  | _ :: _ :: _ :: _ :: rest, s => by
      have ih := encodeWords_none_iff rest (nextShift s)
      simp only [encodeWords, Option.map_eq_none', List.length_cons, ih]
      omega

theorem decodeWords_length :
    ∀ (l : List Nat) (s : Nat) (r : List Nat), decodeWords s l = some r → r.length = l.length
  | [], _, r, h => by simp [decodeWords] at h; subst h; rfl
  | [_], _, _, h => by simp [decodeWords] at h
  | [_, _], _, _, h => by simp [decodeWords] at h
  | [_, _, _], _, _, h => by simp [decodeWords] at h
  | _ :: _ :: _ :: _ :: rest, s, r, h => by
      simp only [decodeWords, Option.map_eq_some'] at h
      obtain ⟨r', hr', rfl⟩ := h
      have ih := decodeWords_length rest (nextShift s) r' hr'
      simp [packLE4, ih]

theorem encrypt_data_length {d r : List Nat} (h : encrypt_data d = some r) :
    r.length = d.length := by
  cases d with
  | nil => simp [encrypt_data] at h
  | cons b t =>
    simp only [encrypt_data] at h
    split at h
    · simp only [Option.some.injEq] at h; subst h; rfl
    · split at h
      · rename_i hguard
        rw [Option.map_eq_some'] at h
        obtain ⟨er, he, hst⟩ := h
        subst hst
        have hl := encodeWords_length _ _ _ he
        simp only [List.length_append, List.length_take, List.length_cons,
          List.length_drop] at hl ⊢
        omega
      · simp only [Option.some.injEq] at h; subst h; rfl

theorem payloadBytes_length {p : List Nat × List Nat} {stored : List Nat}
    (h : payloadBytes? p = some stored) : stored.length = p.2.length := by
  simp only [payloadBytes?] at h
  split at h
  · exact encrypt_data_length h
  · simp only [Option.some.injEq] at h; subst h; rfl

theorem decodeData_assembled (x er : List Nat) (hx : 20 ≤ x.length)
    (hdec : decodeWords 4 er = some (x.drop 16)) :
    decodeData (x.take 16 ++ er) = some x := by
  have htake : (x.take 16).length = 16 := by
    simp only [List.length_take]; omega
  have herlen : er.length = x.length - 16 := by
    have h := decodeWords_length er 4 _ hdec
    simp only [List.length_drop] at h
    omega
  have hguard : ((x.take 16 ++ er).length - 16) / 4 > 0 := by
    simp only [List.length_append, htake]; omega
  unfold decodeData
  rw [if_pos hguard, drop_append_of_len er htake, hdec, Option.map_some',
    take_append_of_len er htake, List.take_append_drop]

/-- The extraction branch of open_entry inverts the writer's conditional
encryption whenever writer and reader make the same cipher decision for the
entry's name. -/
theorem stored_roundtrip {n d stored : List Nat}
    (h : payloadBytes? (n, d) = some stored)
    (hb : ∀ x ∈ d, x < 256) (hcc : extCipherConsistent n) :
    (if determine_type n = Kind.image ∨ determine_type n = Kind.audio ∨ d.length ≤ 16 then
        some stored
      else decodeBranch stored) = some d := by
  by_cases hskip : determine_type n = Kind.image ∨ determine_type n = Kind.audio ∨ d.length ≤ 16
  · rw [if_pos hskip]
    have hstored : stored = d := by
      simp only [payloadBytes?] at h
      split at h
      · rename_i hcond
        obtain ⟨hnal, hlen⟩ := hcond
        have hunk := hcc.mp hnal
        rcases hskip with hk | hk | hk
        · rw [hunk] at hk; exact Kind.noConfusion hk
        · rw [hunk] at hk; exact Kind.noConfusion hk
        · exact absurd hk (by omega)
      · simp only [Option.some.injEq] at h; exact h.symm
    rw [hstored]
  · rw [if_neg hskip]
    push_neg at hskip
    obtain ⟨hni, hna, hlen⟩ := hskip
    have hunk : determine_type n = Kind.unknown := by
      cases hdt : determine_type n
      · exact absurd hdt hni
      · exact absurd hdt hna
      · rfl
    have hnal : toLowerBytes (lastSegAfterDot n) ∉ allowList := hcc.mpr hunk
    have henc : encrypt_data d = some stored := by
      simp only [payloadBytes?] at h
      rw [if_pos ⟨hnal, hlen⟩] at h
      exact h
    cases d with
    | nil => simp at hlen
    | cons b t =>
      have htlen : 16 ≤ t.length := by
        simp only [List.length_cons] at hlen; omega
      by_cases hb36 : b = 36
      · subst hb36
        simp only [encrypt_data, ne_eq, not_true_eq_false, if_false] at henc
        by_cases hguard : (((36 : Nat) :: t).length - 16) / 4 > 0
        · rw [if_pos hguard] at henc
          rw [Option.map_eq_some'] at henc
          obtain ⟨er, he, hst⟩ := henc
          have hreglen : (((36 : Nat) :: t).drop 16).length % 4 = 0 := by
            by_contra hodd
            have hnone := (encodeWords_none_iff (((36 : Nat) :: t).drop 16) 4).mpr hodd
            rw [hnone] at he
            exact Option.noConfusion he
          obtain ⟨r, her, hrl, hrb, hdr⟩ :=
            encode_then_decode ((36 :: t).drop 16) 4 (by omega)
              (fun x hx => hb x (List.mem_of_mem_drop hx)) hreglen
          have hre : r = er := by
            rw [her] at he
            exact Option.some.inj he
          subst hre
          subst hst
          show decodeBranch (((36 : Nat) :: t).take 16 ++ r) = some ((36 : Nat) :: t)
          show (if (36 : Nat) ≠ 36 then some ((36 : Nat) :: (t.take 15 ++ r))
                else decodeData (36 :: (t.take 15 ++ r))) = some ((36 : Nat) :: t)
          rw [if_neg (by simp)]
          show decodeData (((36 : Nat) :: t).take 16 ++ r) = some ((36 : Nat) :: t)
          refine decodeData_assembled (36 :: t) r ?_ hdr
          simp only [List.length_cons] at hguard ⊢
          omega
        · rw [if_neg hguard] at henc
          simp only [Option.some.injEq] at henc
          subst henc
          show (if (36 : Nat) ≠ 36 then some ((36 : Nat) :: t) else decodeData (36 :: t))
              = some ((36 : Nat) :: t)
          rw [if_neg (by simp)]
          unfold decodeData
          rw [if_neg hguard]
      · have hpass : encrypt_data (b :: t) = some (b :: t) := by
          simp only [encrypt_data, if_pos hb36]
        rw [hpass] at henc
        simp only [Option.some.injEq] at henc
        subst henc
        show (if b ≠ 36 then some (b :: t) else decodeData (b :: t)) = some (b :: t)
        rw [if_pos hb36]

/-- Extracting the collected entries in order returns the original buffers,
given the payload bytes laid out from the base offset. -/
theorem extract_loop :
    ∀ (bs : List (List Nat × List Nat)) (f : List Nat) (base : Nat) (pays : List (List Nat)),
      mapOpt payloadBytes? bs = some pays →
      f.drop base = pays.flatten →
      (∀ p ∈ bs, (∀ x ∈ p.2, x < 256) ∧ extCipherConsistent p.1) →
      extractEntries? f (collectFilesAux bs base) = some bs
  | [], f, base, pays, hm, hdrop, hgood => by
      simp only [mapOpt, Option.some.injEq] at hm
      subst hm
      simp [collectFilesAux, extractEntries?]
  | (n, d) :: rest, f, base, pays, hm, hdrop, hgood => by
      obtain ⟨stored, prest, hp, hrest, rfl⟩ := mapOpt_cons_inv hm
      rw [List.flatten_cons] at hdrop
      have hsl : stored.length = d.length := payloadBytes_length hp
      have hread : (f.drop base).take d.length = stored := by
        rw [hdrop, ← hsl]
        exact take_append_of_len _ rfl
      have hopen : open_entry f ⟨n, d.length, base⟩ = some d := by
        show (if determine_type n = Kind.image ∨ determine_type n = Kind.audio ∨ d.length ≤ 16
              then some (readData f ⟨n, d.length, base⟩)
              else decodeBranch (readData f ⟨n, d.length, base⟩))
            = some d
        have hrd : readData f ⟨n, d.length, base⟩ = stored := by
          show (f.drop base).take d.length = stored
          exact hread
        rw [hrd]
        exact stored_roundtrip hp ((hgood (n, d) (by simp)).1) ((hgood (n, d) (by simp)).2)
      have hdrop2 : f.drop (base + d.length) = prest.flatten := by
        rw [drop_add f base d.length, hdrop, ← hsl, drop_append_of_len _ rfl]
      have hrec := extract_loop rest f (base + d.length) prest hrest hdrop2
        (fun p hp' => hgood p (by simp [hp']))
      show (open_entry f ⟨n, d.length, base⟩).bind (fun dd =>
          (extractEntries? f (collectFilesAux rest (base + d.length))).map
            (fun r => (n, dd) :: r)) = some ((n, d) :: rest)
      rw [hopen, Option.some_bind, hrec, Option.map_some']

theorem dropWhile_zeros_append :
    ∀ (k : Nat) (l : List Nat),
      (List.replicate k 0 ++ l).dropWhile (fun b => b == 0) = l.dropWhile (fun b => b == 0)
  | 0, l => by simp
  | k + 1, l => dropWhile_zeros_append k l

theorem rstripZeros_pad (name : List Nat) (k : Nat) (hlast : name.getLast? ≠ some 0) :
    rstripZeros (name ++ List.replicate k 0) = name := by
  unfold rstripZeros
  rw [List.reverse_append, List.reverse_replicate, dropWhile_zeros_append]
  cases hn : name.reverse with
  | nil =>
    have hname : name = [] := by
      have h := congrArg List.reverse hn
      simpa using h
    subst hname
    simp
  | cons a t =>
    have hga : name.getLast? = some a := by
      rw [← List.head?_reverse, hn]; rfl
    have ha : ¬ a = 0 := fun hz => hlast (hz ▸ hga)
    rw [List.dropWhile_cons, if_neg (by simp [ha]), ← hn, List.reverse_reverse]

theorem indexRecord_inv {e : Entry} {r : List Nat} (h : indexRecord? e = some r) :
    (∀ b ∈ e.name, b < 128) ∧ e.size < 4294967296 ∧ e.offset < 4294967296 ∧
    r = ljustZeros e.name 0x20 ++ (packLE4 e.size ++ packLE4 e.offset) := by
  unfold indexRecord? packU32? at h
  split at h
  · rename_i hall
    split at h
    · rename_i hsz
      simp only [Option.some_bind] at h
      split at h
      · rename_i hoff
        simp only [Option.map_some', Option.some.injEq] at h
        refine ⟨?_, hsz, hoff, by rw [← h, List.append_assoc]⟩
        intro b hbmem
        have h1 := List.all_eq_true.mp hall b hbmem
        simpa using h1
      · exact Option.noConfusion h
    · simp only [Option.none_bind] at h
      exact Option.noConfusion h
  · exact Option.noConfusion h

theorem mem_collectFilesAux :
    ∀ (bs : List (List Nat × List Nat)) (base : Nat) (e : Entry),
      e ∈ collectFilesAux bs base → ∃ p ∈ bs, e.name = p.1 ∧ e.size = p.2.length
  | [], _, e, h => by simp [collectFilesAux] at h
  | (n, d) :: rest, base, e, h => by
      simp only [collectFilesAux, List.mem_cons] at h
      rcases h with rfl | h
      · exact ⟨(n, d), by simp, rfl, rfl⟩
      · obtain ⟨p, hp, h1, h2⟩ := mem_collectFilesAux rest (base + d.length) e h
        exact ⟨p, by simp [hp], h1, h2⟩

theorem mapOpt_flatten_length :
    ∀ (es : List Entry) (idx : List (List Nat)),
      mapOpt indexRecord? es = some idx →
      (∀ e ∈ es, e.name.length ≤ 32) →
      idx.flatten.length = 40 * es.length
  | [], idx, hm, _ => by
      simp only [mapOpt, Option.some.injEq] at hm
      subst hm
      simp
  | e :: rest, idx, hm, hg => by
      obtain ⟨rec0, irest, hr, hrest, rfl⟩ := mapOpt_cons_inv hm
      obtain ⟨_, _, _, hrec⟩ := indexRecord_inv hr
      have h0 : rec0.length = 40 := by
        rw [hrec]
        simp only [List.length_append, ljustZeros, List.length_replicate, packLE4,
          List.length_cons, List.length_nil]
        have := hg e (by simp)
        omega
      have ih := mapOpt_flatten_length rest irest hrest (fun e' he' => hg e' (by simp [he']))
      simp only [List.flatten_cons, List.length_append, h0, ih, List.length_cons]
      omega

/-- Decoding the index table written by the packer recovers the collected
entries, for names that fit their slot and have no trailing null byte. -/
theorem read_index_of_flatten :
    ∀ (es : List Entry) (f : List Nat) (pos : Nat) (tail : List Nat) (idx : List (List Nat)),
      mapOpt indexRecord? es = some idx →
      f.drop pos = idx.flatten ++ tail →
      (∀ e ∈ es, e.name.length ≤ 32 ∧ e.name.getLast? ≠ some 0) →
      read_index f es.length pos 0x20 = some es
  | [], f, pos, tail, idx, hm, hdrop, hgood => by
      simp only [mapOpt, Option.some.injEq] at hm
      subst hm
      simp [read_index]
  | e :: rest, f, pos, tail, idx, hm, hdrop, hgood => by
      obtain ⟨rec0, irest, hr, hrest, rfl⟩ := mapOpt_cons_inv hm
      obtain ⟨hascii, hszlt, hofflt, hrec⟩ := indexRecord_inv hr
      have hgood0 := hgood e (by simp)
      have hlj : (ljustZeros e.name 0x20).length = 32 := by
        simp only [ljustZeros, List.length_append, List.length_replicate]
        omega
      have hdrop0 : f.drop pos =
          ljustZeros e.name 0x20 ++ (packLE4 e.size ++ (packLE4 e.offset ++
            (irest.flatten ++ tail))) := by
        rw [hdrop, List.flatten_cons, hrec]
        simp [List.append_assoc]
      have h32 : f.drop (pos + 0x20) =
          packLE4 e.size ++ (packLE4 e.offset ++ (irest.flatten ++ tail)) := by
        rw [drop_add f pos 0x20, hdrop0, drop_append_of_len _ hlj]
      have h36 : f.drop (pos + 0x20 + 4) =
          packLE4 e.offset ++ (irest.flatten ++ tail) := by
        rw [drop_add f (pos + 0x20) 4, h32, drop_append_of_len _ (by simp [packLE4])]
      have h40 : f.drop (pos + 0x20 + 8) = irest.flatten ++ tail := by
        have heq : pos + 0x20 + 8 = pos + 0x20 + 4 + 4 := by omega
        rw [heq, drop_add f (pos + 0x20 + 4) 4, h36, drop_append_of_len _ (by simp [packLE4])]
      have hname : readName? f pos 0x20 = some e.name := by
        unfold readName?
        have hraw : (f.drop pos).take 0x20 = ljustZeros e.name 0x20 := by
          rw [hdrop0]
          exact take_append_of_len _ hlj
        rw [hraw]
        have hall2 : (ljustZeros e.name 0x20).all (fun b => decide (b < 128)) = true := by
          rw [List.all_eq_true]
          intro x hx
          unfold ljustZeros at hx
          rw [List.mem_append] at hx
          rcases hx with hx | hx
          · simpa using hascii x hx
          · rw [List.eq_of_mem_replicate hx]; rfl
        rw [if_pos hall2]
        unfold ljustZeros
        rw [rstripZeros_pad e.name _ hgood0.2]
      have hsize : readU32? f (pos + 0x20) = some e.size := readU32_of_prefix h32 hszlt
      have hoffr : readU32? f (pos + 0x20 + 4) = some e.offset := readU32_of_prefix h36 hofflt
      have hrecord : readRecord? f pos 0x20 = some e := by
        unfold readRecord?
        rw [hname, Option.some_bind, hsize, Option.some_bind, hoffr, Option.map_some']
      have hih := read_index_of_flatten rest f (pos + 0x20 + 8) tail irest hrest h40
        (fun e' he' => hgood e' (List.mem_cons_of_mem _ he'))
      simp only [List.length_cons, read_index, hrecord, Option.some_bind, hih,
        Option.map_some']

set_option maxRecDepth 100000 in
/-- C1 counterexample: for the single ogg-named 20-byte tagged buffer, the
writer applies the cipher (ogg is outside its allow-list) but the reader
classifies the name as audio and skips the decode, so extraction returns the
still-encrypted payload: the round trip is not the identity. -/
theorem claim_round_trip_counterexample :
    extractAll? ((write_archive? oggBuffers).getD []) ≠ some (some oggBuffers) ∧
    extractAll? ((write_archive? oggBuffers).getD []) =
      some (some [(oggName, 36 :: (List.replicate 15 0 ++ [201, 135, 214, 243]))]) := by
  constructor
  · decide
  · decide

/-- C1 amended: the round trip extract_all (build buffers) = buffers holds
for every non-empty list of fewer than 100000 named buffers whose every name
is at most 32 bytes with no trailing null byte, whose every payload is made
of bytes, and whose every name makes the writer's allow-list and the reader's
kind classifier take the same cipher decision (which fails exactly for the
extensions jpg, png, bmp, mp3, ogg and pgd); word-alignment of the
cipher-applied payloads is implied by the build having succeeded. -/
theorem claim_round_trip (bs : List (List Nat × List Nat)) (out : List Nat)
    (hw : write_archive? bs = some out) (hne : bs ≠ []) (hcnt : bs.length < 100000)
    (hgood : ∀ p ∈ bs, p.1.length ≤ 32 ∧ p.1.getLast? ≠ some 0 ∧
      (∀ x ∈ p.2, x < 256) ∧ extCipherConsistent p.1) :
    extractAll? out = some (some bs) := by
  obtain ⟨n0, d0, bs', rfl⟩ : ∃ n0 d0 bs', bs = (n0, d0) :: bs' := by
    cases bs with
    | nil => exact absurd rfl hne
    | cons p0 bs' => exact ⟨p0.1, p0.2, bs', rfl⟩
  obtain ⟨hlt, idx, pays, hidx, hpays, hout⟩ := write_archive_decomp hw
  have hout' : out = packLE4 ((n0, d0) :: bs').length ++
      (List.replicate (0x3FE - 4) 0 ++ (idx.flatten ++ pays.flatten)) := by
    rw [hout, List.append_assoc, List.append_assoc]
  have hdz : out.drop 0 = packLE4 ((n0, d0) :: bs').length ++
      (List.replicate (0x3FE - 4) 0 ++ (idx.flatten ++ pays.flatten)) := by
    rw [List.drop_zero]
    exact hout'
  have hcount : readU32? out 0 = some ((n0, d0) :: bs').length :=
    readU32_of_prefix hdz hlt
  have hgn : ∀ e ∈ collect_files ((n0, d0) :: bs'),
      e.name.length ≤ 32 ∧ e.name.getLast? ≠ some 0 := by
    intro e he
    unfold collect_files at he
    obtain ⟨p, hp, h1, _⟩ := mem_collectFilesAux _ _ e he
    rw [h1]
    exact ⟨(hgood p hp).1, (hgood p hp).2.1⟩
  have heslen : (collect_files ((n0, d0) :: bs')).length = ((n0, d0) :: bs').length :=
    collectFilesAux_length _ _
  have hd1022 : out.drop 0x3FE = idx.flatten ++ pays.flatten := by
    have hp4 : (packLE4 ((n0, d0) :: bs').length).length = 4 := by simp [packLE4]
    have hrep : (List.replicate (0x3FE - 4) (0 : Nat)).length = 1018 := by
      rw [List.length_replicate]
    have h4 : out.drop 4 = List.replicate (0x3FE - 4) 0 ++ (idx.flatten ++ pays.flatten) := by
      rw [hout']
      exact drop_append_of_len _ hp4
    rw [show (0x3FE : Nat) = 4 + 1018 from by norm_num, drop_add out 4 1018, h4,
      drop_append_of_len _ hrep]
  have hflen : idx.flatten.length = 40 * ((n0, d0) :: bs').length := by
    rw [mapOpt_flatten_length _ _ hidx (fun e he => (hgn e he).1), heslen]
  have hreadidx : read_index out ((n0, d0) :: bs').length 0x3FE 0x20 =
      some (collect_files ((n0, d0) :: bs')) := by
    have h := read_index_of_flatten (collect_files ((n0, d0) :: bs')) out 0x3FE
      pays.flatten idx hidx hd1022 hgn
    rw [heslen] at h
    exact h
  -- decompose the first index record to locate the stored first offset
  have hidx2 := hidx
  rw [show collect_files ((n0, d0) :: bs') =
      (⟨n0, d0.length, 0x3FE + ((n0, d0) :: bs').length * (0x20 + 8)⟩ : Entry) ::
        collectFilesAux bs' (0x3FE + ((n0, d0) :: bs').length * (0x20 + 8) + d0.length)
    from rfl] at hidx2
  obtain ⟨rec0, irest, hr0, hrest0, hidxeq⟩ := mapOpt_cons_inv hidx2
  obtain ⟨hascii0, hsz0, hoff0, hrec0⟩ := indexRecord_inv hr0
  have hn0 : n0.length ≤ 32 := (hgood (n0, d0) (by simp)).1
  have hlj0 : (ljustZeros n0 0x20).length = 32 := by
    simp only [ljustZeros, List.length_append, List.length_replicate]
    omega
  have hfo : readU32? out (0x3FE + 0x20 + 4) =
      some (0x3FE + ((n0, d0) :: bs').length * (0x20 + 8)) := by
    have ha : out.drop 0x3FE = ljustZeros n0 0x20 ++ (packLE4 d0.length ++
        (packLE4 (0x3FE + ((n0, d0) :: bs').length * (0x20 + 8)) ++
          (irest.flatten ++ pays.flatten))) := by
      rw [hd1022, hidxeq, List.flatten_cons, hrec0]
      simp [List.append_assoc]
    have hb : out.drop (0x3FE + 0x20) = packLE4 d0.length ++
        (packLE4 (0x3FE + ((n0, d0) :: bs').length * (0x20 + 8)) ++
          (irest.flatten ++ pays.flatten)) := by
      rw [drop_add out 0x3FE 0x20, ha, drop_append_of_len _ hlj0]
    have hc2 : out.drop (0x3FE + 0x20 + 4) =
        packLE4 (0x3FE + ((n0, d0) :: bs').length * (0x20 + 8)) ++
          (irest.flatten ++ pays.flatten) := by
      rw [drop_add out (0x3FE + 0x20) 4, hb, drop_append_of_len _ (by simp [packLE4])]
    exact readU32_of_prefix hc2 hoff0
  have hsane : is_sane_count ((n0, d0) :: bs').length := ⟨by simp, hcnt⟩
  have hprobe := try_open_wide_accepts hcount hsane hfo hreadidx
  have hpaysdrop : out.drop (0x3FE + ((n0, d0) :: bs').length * (0x20 + 8)) =
      pays.flatten := by
    rw [drop_add out 0x3FE (((n0, d0) :: bs').length * (0x20 + 8)), hd1022,
      drop_append_of_len _ (by rw [hflen]; omega)]
  have hextract : extractEntries? out (collect_files ((n0, d0) :: bs')) =
      some ((n0, d0) :: bs') := by
    show extractEntries? out
      (collectFilesAux ((n0, d0) :: bs') (0x3FE + ((n0, d0) :: bs').length * (0x20 + 8)))
      = some ((n0, d0) :: bs')
    exact extract_loop ((n0, d0) :: bs') out _ pays hpays hpaysdrop
      (fun p hp => ⟨(hgood p hp).2.2.1, (hgood p hp).2.2.2⟩)
  unfold extractAll?
  rw [hprobe.2]
  show (extractEntries? out (collect_files ((n0, d0) :: bs'))).map some =
    some (some ((n0, d0) :: bs'))
  rw [hextract, Option.map_some']

set_option maxRecDepth 100000 in
/-- Witness for claim_round_trip at the concrete single plain-named small
buffer. -/
theorem claim_round_trip_witness :
    extractAll? ((write_archive? goodBuffers).getD []) = some (some goodBuffers) :=
  claim_round_trip goodBuffers ((write_archive? goodBuffers).getD [])
    (by rfl) (by decide) (by decide) (by decide)

end SoftpalPac
